import Mathlib

set_option allowUnsafeReducibility true in
attribute [semireducible] Rat.mul Rat.inv Rat.add Rat.sub Rat.ofScientific

/-!
Shallow embedding of the cache-simulator policy core of the repository
(the `CacheSimulatorDiagram` component in `src/components/Diagrams.tsx`):
per-block feature tracking, the reuse-probability scoring function, and the
confidence-gated replacement decision made by `access`.

Scores are modelled as exact rationals (`ℚ`); the numeric literals of the
source (`0.4`, `0.3`, `0.85`, `0.88`, `0.95`, `0.1`) are exact decimal
fractions, written here as quotients.
-/

/-- A resident cache line, mirroring the source's `CacheBlock`:
`id`, `recency` (0 = most recently used), `frequency` (access count) and
the predicted reuse-probability `score`. -/
structure CacheBlock where
  id : String
  recency : Nat
  frequency : Nat
  score : ℚ
deriving DecidableEq, Repr, Inhabited

/-- The source's `WorkloadType`: the two scoring regimes. -/
inductive WorkloadType where
  | Friendly
  | Hostile
deriving DecidableEq, Repr

/-- Capacity of the cache set, `CAPACITY = 4` in the source. -/
def CAPACITY : Nat := 4

/-- The confidence threshold τ, `CONFIDENCE_THRESHOLD = 0.88` in the source. -/
def CONFIDENCE_THRESHOLD : ℚ := 88/100

/-- The source's `predictReuseProb`:
Friendly: `min(0.85, 0.4 + (1/(recency+1))*0.3)`;
Hostile: `0.95` if `freq >= 2`, `0.4` if `freq == 1`, else `0.1`. -/
def predictReuseProb (freq : Nat) (recency : Nat) (type : WorkloadType) : ℚ :=
  match type with
  | .Friendly =>
      let baseScore : ℚ := 4/10 + (1/((recency : ℚ) + 1)) * (3/10)
      min (85/100) baseScore
  | .Hostile =>
      if freq ≥ 2 then 95/100
      else if freq = 1 then 4/10
      else 1/10

/-- The source's `decisionMode` state: `'ML' | 'LRU_FALLBACK' | 'IDLE'`. -/
inductive DecisionMode where
  | ML
  | LRU_FALLBACK
  | IDLE
deriving DecidableEq, Repr

/-- Result of one `access` call: the new cache contents plus the decision
metadata the source publishes through `setDecisionMode` / `setConfidence`
and the evicted block (if any). -/
structure AccessResult where
  cache : List CacheBlock
  decisionMode : DecisionMode
  confidence : Option ℚ
  victim : Option CacheBlock
deriving DecidableEq, Repr

/-- The HIT branch of `access`: the hit block gets `frequency + 1` and
`recency := 0`, every other block gets `recency + 1`, and every block's
score is recomputed (the source's `forEach` assigns `b.score` for all
blocks; the extra re-assignment of the hit block's score is idempotent). -/
def hitUpdate (w : WorkloadType) (l : List CacheBlock) (hitIdx : Nat) : List CacheBlock :=
  l.enum.map fun p =>
    let b := if p.1 = hitIdx
      then { p.2 with frequency := p.2.frequency + 1, recency := 0 }
      else { p.2 with recency := p.2.recency + 1 }
    { b with score := predictReuseProb b.frequency b.recency w }

/-- The recency bump + rescore the source applies to all resident blocks on
both MISS paths (`forEach: b.recency += 1; b.score = predictReuseProb ...`). -/
def bumpRescore (w : WorkloadType) (l : List CacheBlock) : List CacheBlock :=
  l.map fun b =>
    let b1 := { b with recency := b.recency + 1 }
    { b1 with score := predictReuseProb b1.frequency b1.recency w }

/-- Maximum of a list of scores, mirroring `Math.max(...scores)` (only ever applied to nonempty lists). -/
def listMaxQ : List ℚ → ℚ
  | [] => 0
  | x :: xs => xs.foldl max x

/-- The accumulator scan underlying the source's
`reduce((minIdx, b, idx, arr) => b.score < arr[minIdx].score ? idx : minIdx, 0)`:
carries the best index together with its key (the reduce always compares
against `arr[minIdx]`, i.e. the current best's key, so the two are
equivalent). -/
def scanMin {α : Type} [LinearOrder α] (key : CacheBlock → α) :
    List CacheBlock → Nat → Nat × α → Nat × α
  | [], _, acc => acc
  | b :: rest, i, acc =>
      if key b < acc.2 then scanMin key rest (i+1) (i, key b)
      else scanMin key rest (i+1) acc

/-- Same for the LRU fallback reduce
`(maxIdx, b, idx, arr) => b.recency > arr[maxIdx].recency ? idx : maxIdx`. -/
def scanMax {α : Type} [LinearOrder α] (key : CacheBlock → α) :
    List CacheBlock → Nat → Nat × α → Nat × α
  | [], _, acc => acc
  | b :: rest, i, acc =>
      if acc.2 < key b then scanMax key rest (i+1) (i, key b)
      else scanMax key rest (i+1) acc

/-- Index of the first minimum-score block (the ML-guided victim choice). -/
def argminScore : List CacheBlock → Nat
  | [] => 0
  | b :: rest => (scanMin (fun c => c.score) rest 1 (0, b.score)).1

/-- Index of the first maximum-recency block (the LRU-fallback victim choice). -/
def argmaxRecency : List CacheBlock → Nat
  | [] => 0
  | b :: rest => (scanMax (fun c => c.recency) rest 1 (0, b.recency)).1

/-- The freshly inserted block of a MISS:
`{ id, recency: 0, frequency: 1, score: predictReuseProb(1, 0, workload) }`. -/
def newBlockFor (w : WorkloadType) (blockId : String) : CacheBlock :=
  { id := blockId, recency := 0, frequency := 1, score := predictReuseProb 1 0 w }

/-- The source's `access`, parametric in the capacity (`CAPACITY = 4` in the
source) and in the current workload mode. -/
def access (cap : Nat) (w : WorkloadType) (prevCache : List CacheBlock)
    (blockId : String) : AccessResult :=
  match prevCache.findIdx? (fun b => b.id == blockId) with
  | some hitIdx =>
      { cache := hitUpdate w prevCache hitIdx, decisionMode := .IDLE,
        confidence := none, victim := none }
  | none =>
      let newBlock := newBlockFor w blockId
      if prevCache.length < cap then
        { cache := bumpRescore w prevCache ++ [newBlock], decisionMode := .IDLE,
          confidence := none, victim := none }
      else
        let bumped := bumpRescore w prevCache
        let maxScore := listMaxQ (bumped.map (fun b => b.score))
        if CONFIDENCE_THRESHOLD < maxScore then
          let victimIndex := argminScore bumped
          { cache := bumped.set victimIndex newBlock, decisionMode := .ML,
            confidence := some maxScore,
            victim := some (bumped.getD victimIndex default) }
        else
          let victimIndex := argmaxRecency bumped
          { cache := bumped.set victimIndex newBlock, decisionMode := .LRU_FALLBACK,
            confidence := some maxScore,
            victim := some (bumped.getD victimIndex default) }

/-- Driving a whole access sequence from the empty cache under a fixed mode. -/
def runAccesses (cap : Nat) (w : WorkloadType) (ids : List String) : List CacheBlock :=
  ids.foldl (fun c blockId => (access cap w c blockId).cache) []

/-- The simulator's state visible across accesses: the resident blocks and
the currently selected workload mode. -/
structure SimState where
  cache : List CacheBlock
  workload : WorkloadType
deriving DecidableEq, Repr

/-- The mode-switch buttons (`setWorkload('Hostile'/'Friendly')`): they only
replace the workload mode, touching no cache state. -/
def setWorkloadMode (s : SimState) (m : WorkloadType) : SimState :=
  { s with workload := m }

/-! ### Basic structural lemmas -/

theorem length_hitUpdate (w : WorkloadType) (l : List CacheBlock) (i : Nat) :
    (hitUpdate w l i).length = l.length := by
  simp [hitUpdate]

theorem length_bumpRescore (w : WorkloadType) (l : List CacheBlock) :
    (bumpRescore w l).length = l.length := by
  simp [bumpRescore]

theorem getD_eq_getElem (l : List CacheBlock) (j : Nat) (h : j < l.length) :
    l.getD j default = l[j] := by
  simp [List.getD_eq_getElem?_getD, List.getElem?_eq_getElem h]

/-! ### Branch equations for `access` -/

theorem access_hit_eq (cap : Nat) (w : WorkloadType) (l : List CacheBlock) (blockId : String)
    (i : Nat) (h : l.findIdx? (fun b => b.id == blockId) = some i) :
    access cap w l blockId =
      { cache := hitUpdate w l i, decisionMode := .IDLE, confidence := none,
        victim := none } := by
  unfold access
  rw [h]

theorem access_missInsert_eq (cap : Nat) (w : WorkloadType) (l : List CacheBlock)
    (blockId : String) (h : l.findIdx? (fun b => b.id == blockId) = none)
    (hlen : l.length < cap) :
    access cap w l blockId =
      { cache := bumpRescore w l ++ [newBlockFor w blockId], decisionMode := .IDLE,
        confidence := none, victim := none } := by
  unfold access
  rw [h]
  simp [hlen]

theorem access_missEvict_ml_eq (cap : Nat) (w : WorkloadType) (l : List CacheBlock)
    (blockId : String) (h : l.findIdx? (fun b => b.id == blockId) = none)
    (hlen : ¬ l.length < cap)
    (hml : CONFIDENCE_THRESHOLD < listMaxQ ((bumpRescore w l).map (fun b => b.score))) :
    access cap w l blockId =
      { cache := (bumpRescore w l).set (argminScore (bumpRescore w l)) (newBlockFor w blockId),
        decisionMode := .ML,
        confidence := some (listMaxQ ((bumpRescore w l).map (fun b => b.score))),
        victim := some ((bumpRescore w l).getD (argminScore (bumpRescore w l)) default) } := by
  unfold access
  rw [h]
  simp [hlen, hml]

theorem access_missEvict_lru_eq (cap : Nat) (w : WorkloadType) (l : List CacheBlock)
    (blockId : String) (h : l.findIdx? (fun b => b.id == blockId) = none)
    (hlen : ¬ l.length < cap)
    (hml : ¬ CONFIDENCE_THRESHOLD < listMaxQ ((bumpRescore w l).map (fun b => b.score))) :
    access cap w l blockId =
      { cache := (bumpRescore w l).set (argmaxRecency (bumpRescore w l)) (newBlockFor w blockId),
        decisionMode := .LRU_FALLBACK,
        confidence := some (listMaxQ ((bumpRescore w l).map (fun b => b.score))),
        victim := some ((bumpRescore w l).getD (argmaxRecency (bumpRescore w l)) default) } := by
  unfold access
  rw [h]
  simp [hlen, hml]

/-! ### Score freshness -/

theorem hitUpdate_score_fresh (w : WorkloadType) (l : List CacheBlock) (i : Nat) :
    ∀ b ∈ hitUpdate w l i, b.score = predictReuseProb b.frequency b.recency w := by
  intro b hb
  simp only [hitUpdate, List.mem_map] at hb
  obtain ⟨p, _, rfl⟩ := hb
  rfl

theorem bumpRescore_score_fresh (w : WorkloadType) (l : List CacheBlock) :
    ∀ b ∈ bumpRescore w l, b.score = predictReuseProb b.frequency b.recency w := by
  intro b hb
  simp only [bumpRescore, List.mem_map] at hb
  obtain ⟨p, _, rfl⟩ := hb
  rfl

/-- Every block resident right after an `access` carries a score that is the
scoring function applied to its own current features and the active mode. -/
theorem access_score_fresh (cap : Nat) (w : WorkloadType) (l : List CacheBlock)
    (blockId : String) :
    ∀ b ∈ (access cap w l blockId).cache,
      b.score = predictReuseProb b.frequency b.recency w := by
  intro b hb
  cases h : l.findIdx? (fun b => b.id == blockId) with
  | some i =>
      rw [access_hit_eq cap w l blockId i h] at hb
      exact hitUpdate_score_fresh w l i b hb
  | none =>
      by_cases hlen : l.length < cap
      · rw [access_missInsert_eq cap w l blockId h hlen] at hb
        rcases List.mem_append.mp hb with hb | hb
        · exact bumpRescore_score_fresh w l b hb
        · simp only [List.mem_singleton] at hb
          subst hb
          rfl
      · by_cases hml :
          CONFIDENCE_THRESHOLD < listMaxQ ((bumpRescore w l).map (fun b => b.score))
        · rw [access_missEvict_ml_eq cap w l blockId h hlen hml] at hb
          rcases List.mem_or_eq_of_mem_set hb with hb | hb
          · exact bumpRescore_score_fresh w l b hb
          · subst hb
            rfl
        · rw [access_missEvict_lru_eq cap w l blockId h hlen hml] at hb
          rcases List.mem_or_eq_of_mem_set hb with hb | hb
          · exact bumpRescore_score_fresh w l b hb
          · subst hb
            rfl

/-! ### The victim-selection scans compute first-occurrence arg-extrema -/

theorem scanMin_spec {α : Type} [LinearOrder α] (key : CacheBlock → α)
    (rest : List CacheBlock) :
    ∀ (i bi : Nat) (bv : α),
      (scanMin key rest i (bi, bv)).2 ≤ bv ∧
      (∀ k, k < rest.length → (scanMin key rest i (bi, bv)).2 ≤ key (rest.getD k default)) ∧
      (scanMin key rest i (bi, bv) = (bi, bv) ∨
        ∃ k, k < rest.length ∧
          scanMin key rest i (bi, bv) = (i + k, key (rest.getD k default)) ∧
          key (rest.getD k default) < bv ∧
          ∀ j, j < k → key (rest.getD k default) < key (rest.getD j default)) := by
  induction rest with
  | nil =>
      intro i bi bv
      refine ⟨le_refl _, ?_, Or.inl rfl⟩
      intro k hk
      simp at hk
  | cons b rest ih =>
      intro i bi bv
      by_cases hb : key b < bv
      · have heq : scanMin key (b :: rest) i (bi, bv) = scanMin key rest (i+1) (i, key b) := by
          simp [scanMin, hb]
        obtain ⟨ih1, ih2, ih3⟩ := ih (i+1) i (key b)
        rw [heq]
        refine ⟨le_trans ih1 (le_of_lt hb), ?_, ?_⟩
        · intro k hk
          cases k with
          | zero => simpa using ih1
          | succ k' => simpa using ih2 k' (by simpa using hk)
        · right
          rcases ih3 with h0 | ⟨k', hk', h1, h2, h3⟩
          · refine ⟨0, by simp, ?_, by simpa using hb, ?_⟩
            · rw [h0]
              simp
            · intro j hj
              omega
          · refine ⟨k' + 1, by simpa using hk', ?_, ?_, ?_⟩
            · have hidx : (i+1) + k' = i + (k'+1) := by omega
              rw [h1, hidx, List.getD_cons_succ]
            · rw [List.getD_cons_succ]
              exact lt_trans h2 hb
            · intro j hj
              cases j with
              | zero => simpa using h2
              | succ j' => simpa using h3 j' (by omega)
      · have heq : scanMin key (b :: rest) i (bi, bv) = scanMin key rest (i+1) (bi, bv) := by
          simp [scanMin, hb]
        obtain ⟨ih1, ih2, ih3⟩ := ih (i+1) bi bv
        rw [heq]
        have hble : bv ≤ key b := le_of_not_lt hb
        refine ⟨ih1, ?_, ?_⟩
        · intro k hk
          cases k with
          | zero => simpa using le_trans ih1 hble
          | succ k' => simpa using ih2 k' (by simpa using hk)
        · rcases ih3 with h0 | ⟨k', hk', h1, h2, h3⟩
          · exact Or.inl h0
          · right
            refine ⟨k' + 1, by simpa using hk', ?_, ?_, ?_⟩
            · have hidx : (i+1) + k' = i + (k'+1) := by omega
              rw [h1, hidx, List.getD_cons_succ]
            · rw [List.getD_cons_succ]
              exact h2
            · intro j hj
              cases j with
              | zero => simpa using lt_of_lt_of_le h2 hble
              | succ j' => simpa using h3 j' (by omega)

theorem scanMax_spec {α : Type} [LinearOrder α] (key : CacheBlock → α)
    (rest : List CacheBlock) :
    ∀ (i bi : Nat) (bv : α),
      bv ≤ (scanMax key rest i (bi, bv)).2 ∧
      (∀ k, k < rest.length → key (rest.getD k default) ≤ (scanMax key rest i (bi, bv)).2) ∧
      (scanMax key rest i (bi, bv) = (bi, bv) ∨
        ∃ k, k < rest.length ∧
          scanMax key rest i (bi, bv) = (i + k, key (rest.getD k default)) ∧
          bv < key (rest.getD k default) ∧
          ∀ j, j < k → key (rest.getD j default) < key (rest.getD k default)) := by
  induction rest with
  | nil =>
      intro i bi bv
      refine ⟨le_refl _, ?_, Or.inl rfl⟩
      intro k hk
      simp at hk
  | cons b rest ih =>
      intro i bi bv
      by_cases hb : bv < key b
      · have heq : scanMax key (b :: rest) i (bi, bv) = scanMax key rest (i+1) (i, key b) := by
          simp [scanMax, hb]
        obtain ⟨ih1, ih2, ih3⟩ := ih (i+1) i (key b)
        rw [heq]
        refine ⟨le_trans (le_of_lt hb) ih1, ?_, ?_⟩
        · intro k hk
          cases k with
          | zero => simpa using ih1
          | succ k' => simpa using ih2 k' (by simpa using hk)
        · right
          rcases ih3 with h0 | ⟨k', hk', h1, h2, h3⟩
          · refine ⟨0, by simp, ?_, by simpa using hb, ?_⟩
            · rw [h0]
              simp
            · intro j hj
              omega
          · refine ⟨k' + 1, by simpa using hk', ?_, ?_, ?_⟩
            · have hidx : (i+1) + k' = i + (k'+1) := by omega
              rw [h1, hidx, List.getD_cons_succ]
            · rw [List.getD_cons_succ]
              exact lt_trans hb h2
            · intro j hj
              cases j with
              | zero => simpa using h2
              | succ j' => simpa using h3 j' (by omega)
      · have heq : scanMax key (b :: rest) i (bi, bv) = scanMax key rest (i+1) (bi, bv) := by
          simp [scanMax, hb]
        obtain ⟨ih1, ih2, ih3⟩ := ih (i+1) bi bv
        rw [heq]
        have hble : key b ≤ bv := le_of_not_lt hb
        refine ⟨ih1, ?_, ?_⟩
        · intro k hk
          cases k with
          | zero => simpa using le_trans hble ih1
          | succ k' => simpa using ih2 k' (by simpa using hk)
        · rcases ih3 with h0 | ⟨k', hk', h1, h2, h3⟩
          · exact Or.inl h0
          · right
            refine ⟨k' + 1, by simpa using hk', ?_, ?_, ?_⟩
            · have hidx : (i+1) + k' = i + (k'+1) := by omega
              rw [h1, hidx, List.getD_cons_succ]
            · rw [List.getD_cons_succ]
              exact h2
            · intro j hj
              cases j with
              | zero => simpa using lt_of_le_of_lt hble h2
              | succ j' => simpa using h3 j' (by omega)

/-- Characterization: `argminScore` returns an in-range index whose block attains the minimum
score, and it is the first such index (every strictly earlier index holds a
strictly larger score). -/
theorem argminScore_spec (l : List CacheBlock) (hne : l ≠ []) :
    argminScore l < l.length ∧
    (∀ j, j < l.length →
      (l.getD (argminScore l) default).score ≤ (l.getD j default).score) ∧
    (∀ j, j < argminScore l →
      (l.getD (argminScore l) default).score < (l.getD j default).score) := by
  cases l with
  | nil => exact absurd rfl hne
  | cons b rest =>
      obtain ⟨h1, h2, h3⟩ := scanMin_spec (fun c => c.score) rest 1 0 b.score
      rcases h3 with h0 | ⟨k, hk, hkeq, hlt, hfirst⟩
      · have hidx : argminScore (b :: rest) = 0 := by
          simp [argminScore, h0]
        rw [hidx]
        refine ⟨by simp, ?_, ?_⟩
        · intro j hj
          cases j with
          | zero => simp
          | succ j' =>
              simp only [List.getD_cons_zero, List.getD_cons_succ]
              have hj' := h2 j' (by simpa using hj)
              rw [h0] at hj'
              exact hj'
        · intro j hj
          omega
      · have hidx : argminScore (b :: rest) = 1 + k := by
          simp [argminScore, hkeq]
        have hval : ((b :: rest).getD (1 + k) default) = rest.getD k default := by
          have h1k : 1 + k = k + 1 := by omega
          rw [h1k, List.getD_cons_succ]
        rw [hidx]
        refine ⟨by simp; omega, ?_, ?_⟩
        · intro j hj
          rw [hval]
          cases j with
          | zero => simpa using le_of_lt hlt
          | succ j' =>
              rw [List.getD_cons_succ]
              have hj' := h2 j' (by simpa using hj)
              rw [hkeq] at hj'
              exact hj'
        · intro j hj
          rw [hval]
          cases j with
          | zero => simpa using hlt
          | succ j' =>
              rw [List.getD_cons_succ]
              exact hfirst j' (by omega)

/-- Characterization: `argmaxRecency` returns an in-range index whose block attains the maximum
recency, and it is the first such index. -/
theorem argmaxRecency_spec (l : List CacheBlock) (hne : l ≠ []) :
    argmaxRecency l < l.length ∧
    (∀ j, j < l.length →
      (l.getD j default).recency ≤ (l.getD (argmaxRecency l) default).recency) ∧
    (∀ j, j < argmaxRecency l →
      (l.getD j default).recency < (l.getD (argmaxRecency l) default).recency) := by
  cases l with
  | nil => exact absurd rfl hne
  | cons b rest =>
      obtain ⟨h1, h2, h3⟩ := scanMax_spec (fun c => c.recency) rest 1 0 b.recency
      rcases h3 with h0 | ⟨k, hk, hkeq, hlt, hfirst⟩
      · have hidx : argmaxRecency (b :: rest) = 0 := by
          simp [argmaxRecency, h0]
        rw [hidx]
        refine ⟨by simp, ?_, ?_⟩
        · intro j hj
          cases j with
          | zero => simp
          | succ j' =>
              simp only [List.getD_cons_zero, List.getD_cons_succ]
              have hj' := h2 j' (by simpa using hj)
              rw [h0] at hj'
              exact hj'
        · intro j hj
          omega
      · have hidx : argmaxRecency (b :: rest) = 1 + k := by
          simp [argmaxRecency, hkeq]
        have hval : ((b :: rest).getD (1 + k) default) = rest.getD k default := by
          have h1k : 1 + k = k + 1 := by omega
          rw [h1k, List.getD_cons_succ]
        rw [hidx]
        refine ⟨by simp; omega, ?_, ?_⟩
        · intro j hj
          rw [hval]
          cases j with
          | zero => simpa using le_of_lt hlt
          | succ j' =>
              rw [List.getD_cons_succ]
              have hj' := h2 j' (by simpa using hj)
              rw [hkeq] at hj'
              exact hj'
        · intro j hj
          rw [hval]
          cases j with
          | zero => simpa using hlt
          | succ j' =>
              rw [List.getD_cons_succ]
              exact hfirst j' (by omega)

/-! ### `listMaxQ` is the maximum -/

theorem foldl_max_spec (l : List ℚ) :
    ∀ init : ℚ, init ≤ l.foldl max init ∧
      (∀ a ∈ l, a ≤ l.foldl max init) ∧
      (l.foldl max init = init ∨ l.foldl max init ∈ l) := by
  induction l with
  | nil =>
      intro init
      refine ⟨le_refl _, ?_, Or.inl rfl⟩
      intro a ha
      simp at ha
  | cons x xs ih =>
      intro init
      obtain ⟨h1, h2, h3⟩ := ih (max init x)
      have hfold : (x :: xs).foldl max init = xs.foldl max (max init x) := rfl
      refine ⟨?_, ?_, ?_⟩
      · rw [hfold]
        exact le_trans (le_max_left _ _) h1
      · intro a ha
        rw [hfold]
        rcases List.mem_cons.mp ha with rfl | ha
        · exact le_trans (le_max_right _ _) h1
        · exact h2 a ha
      · rw [hfold]
        rcases h3 with h | h
        · rcases max_choice init x with hm | hm
          · exact Or.inl (by rw [h, hm])
          · refine Or.inr ?_
            rw [h, hm]
            exact List.mem_cons_self _ _
        · exact Or.inr (List.mem_cons_of_mem _ h)

theorem le_listMaxQ (l : List ℚ) (a : ℚ) (ha : a ∈ l) : a ≤ listMaxQ l := by
  cases l with
  | nil => simp at ha
  | cons x xs =>
      have hl : listMaxQ (x :: xs) = xs.foldl max x := rfl
      rw [hl]
      rcases List.mem_cons.mp ha with rfl | ha
      · exact (foldl_max_spec xs a).1
      · exact (foldl_max_spec xs x).2.1 a ha

theorem listMaxQ_mem (l : List ℚ) (hne : l ≠ []) : listMaxQ l ∈ l := by
  cases l with
  | nil => exact absurd rfl hne
  | cons x xs =>
      have hl : listMaxQ (x :: xs) = xs.foldl max x := rfl
      rw [hl]
      rcases (foldl_max_spec xs x).2.2 with h | h
      · rw [h]
        exact List.mem_cons_self _ _
      · exact List.mem_cons_of_mem _ h

theorem listMaxQ_le (l : List ℚ) (c : ℚ) (hc : 0 ≤ c) (h : ∀ a ∈ l, a ≤ c) :
    listMaxQ l ≤ c := by
  cases l with
  | nil => simpa [listMaxQ] using hc
  | cons x xs => exact h _ (listMaxQ_mem (x :: xs) (by simp))

theorem lt_listMaxQ_iff (l : List ℚ) (c : ℚ) (hc : 0 ≤ c) :
    c < listMaxQ l ↔ ∃ a ∈ l, c < a := by
  constructor
  · intro h
    cases l with
    | nil =>
        rw [show listMaxQ [] = 0 from rfl] at h
        exact absurd h (not_lt.mpr hc)
    | cons x xs => exact ⟨listMaxQ (x :: xs), listMaxQ_mem _ (by simp), h⟩
  · rintro ⟨a, ha, hca⟩
    exact lt_of_lt_of_le hca (le_listMaxQ l a ha)

/-! ### Arithmetic facts about the scoring function -/

theorem friendly_le (f r : Nat) : predictReuseProb f r .Friendly ≤ 85/100 := by
  simp only [predictReuseProb]
  exact min_le_left _ _

theorem friendly_div_pos (r : Nat) : (0:ℚ) < (3/10 : ℚ) / ((r : ℚ) + 1) := by
  positivity

theorem friendly_div_le (r : Nat) : (3/10 : ℚ) / ((r : ℚ) + 1) ≤ 3/10 := by
  have hr : (0:ℚ) ≤ (r : ℚ) := Nat.cast_nonneg r
  rw [div_le_iff₀ (by positivity)]
  nlinarith

/-- The Friendly branch evaluates to `0.4 + 0.3/(recency+1)`: the `min 0.85`
cap never binds, since the base expression is at most `0.7`. -/
theorem friendly_eval (f r : Nat) :
    predictReuseProb f r .Friendly = 4/10 + (3/10) / ((r : ℚ) + 1) := by
  have hdivle := friendly_div_le r
  simp only [predictReuseProb]
  have hbase : (4/10 : ℚ) + (1/((r : ℚ) + 1)) * (3/10) = 4/10 + (3/10) / ((r : ℚ) + 1) := by
    ring
  rw [hbase, min_eq_right]
  linarith

theorem hostile_gt_iff (f r : Nat) :
    CONFIDENCE_THRESHOLD < predictReuseProb f r .Hostile ↔ 2 ≤ f := by
  simp only [predictReuseProb, CONFIDENCE_THRESHOLD]
  by_cases h2 : f ≥ 2
  · rw [if_pos h2]
    exact iff_of_true (by norm_num) h2
  · rw [if_neg h2]
    by_cases h1 : f = 1
    · rw [if_pos h1]
      exact iff_of_false (by norm_num) h2
    · rw [if_neg h1]
      exact iff_of_false (by norm_num) h2

/-! ### The hit path preserves block identities -/

theorem hitUpdate_map_id (w : WorkloadType) (l : List CacheBlock) (i : Nat) :
    (hitUpdate w l i).map (fun b => b.id) = l.map (fun b => b.id) := by
  unfold hitUpdate
  rw [List.map_map]
  conv_rhs => rw [← List.enum_map_snd l]
  rw [List.map_map]
  apply List.map_congr_left
  intro p _
  by_cases hp : p.1 = i <;> simp [hp]

theorem findIdx?_id_congr (x : String) :
    ∀ (l1 l2 : List CacheBlock) (n : Nat),
      l1.map (fun b => b.id) = l2.map (fun b => b.id) →
      l1.findIdx? (fun b => b.id == x) n = l2.findIdx? (fun b => b.id == x) n
  | [], [], _, _ => rfl
  | [], _ :: _, _, h => by simp at h
  | _ :: _, [], _, h => by simp at h
  | a :: s, b :: t, n, h => by
      simp only [List.map_cons, List.cons.injEq] at h
      obtain ⟨hid, hrest⟩ := h
      simp only [List.findIdx?_cons, hid]
      rw [findIdx?_id_congr x s t (n + 1) hrest]

theorem findIdx?_some_lt (l : List CacheBlock) (p : CacheBlock → Bool) (i : Nat)
    (h : l.findIdx? p = some i) : i < l.length :=
  (List.findIdx?_eq_some_iff_findIdx_eq.mp h).1

/-- The hit block after `hitUpdate`: frequency incremented, recency reset to
0, score recomputed, identity unchanged. -/
theorem hitUpdate_getD_hit (w : WorkloadType) (l : List CacheBlock) (i : Nat)
    (hi : i < l.length) :
    (hitUpdate w l i).getD i default =
      { id := (l.getD i default).id, recency := 0,
        frequency := (l.getD i default).frequency + 1,
        score := predictReuseProb ((l.getD i default).frequency + 1) 0 w } := by
  have hi2 : i < (hitUpdate w l i).length := by
    rw [length_hitUpdate]
    exact hi
  rw [getD_eq_getElem _ _ hi2, getD_eq_getElem _ _ hi]
  unfold hitUpdate
  simp [List.getElem_map, List.getElem_enum]

/-! ### Length evolution of `access` -/

theorem length_access_le (cap : Nat) (w : WorkloadType) (l : List CacheBlock)
    (blockId : String) (h : l.length ≤ cap) :
    (access cap w l blockId).cache.length ≤ cap := by
  cases hfi : l.findIdx? (fun b => b.id == blockId) with
  | some i =>
      rw [access_hit_eq cap w l blockId i hfi]
      simpa [length_hitUpdate] using h
  | none =>
      by_cases hlen : l.length < cap
      · rw [access_missInsert_eq cap w l blockId hfi hlen]
        simp only [List.length_append, List.length_singleton, length_bumpRescore]
        omega
      · by_cases hml :
          CONFIDENCE_THRESHOLD < listMaxQ ((bumpRescore w l).map (fun b => b.score))
        · rw [access_missEvict_ml_eq cap w l blockId hfi hlen hml]
          simpa [List.length_set, length_bumpRescore] using h
        · rw [access_missEvict_lru_eq cap w l blockId hfi hlen hml]
          simpa [List.length_set, length_bumpRescore] using h

theorem length_access_full (cap : Nat) (w : WorkloadType) (l : List CacheBlock)
    (blockId : String) (h : l.length = cap) :
    (access cap w l blockId).cache.length = cap := by
  cases hfi : l.findIdx? (fun b => b.id == blockId) with
  | some i =>
      rw [access_hit_eq cap w l blockId i hfi]
      simpa [length_hitUpdate] using h
  | none =>
      have hlen : ¬ l.length < cap := by omega
      by_cases hml :
        CONFIDENCE_THRESHOLD < listMaxQ ((bumpRescore w l).map (fun b => b.score))
      · rw [access_missEvict_ml_eq cap w l blockId hfi hlen hml]
        simpa [List.length_set, length_bumpRescore] using h
      · rw [access_missEvict_lru_eq cap w l blockId hfi hlen hml]
        simpa [List.length_set, length_bumpRescore] using h

theorem foldl_access_length_le (cap : Nat) (w : WorkloadType) (ids : List String) :
    ∀ l : List CacheBlock, l.length ≤ cap →
      (ids.foldl (fun c blockId => (access cap w c blockId).cache) l).length ≤ cap := by
  induction ids with
  | nil =>
      intro l h
      exact h
  | cons x xs ih =>
      intro l h
      simp only [List.foldl_cons]
      exact ih _ (length_access_le cap w l x h)

/-! ## Claim theorems -/

/-- Claim C3: the scoring function is a pure, deterministic function of
`(frequency, recency, mode)`: Friendly mode returns
`min(0.85, 0.4 + 0.3/(recency+1))`; Hostile mode returns `0.95` when
`frequency ≥ 2`, `0.4` when `frequency = 1`, and `0.1` when `frequency = 0`;
identical inputs always yield the identical score. -/
theorem predictReuseProb_spec (freq recency f2 r2 : Nat) (m : WorkloadType) :
    predictReuseProb freq recency .Friendly =
      min (85/100) (4/10 + (3/10) / ((recency : ℚ) + 1)) ∧
    (2 ≤ freq → predictReuseProb freq recency .Hostile = 95/100) ∧
    (freq = 1 → predictReuseProb freq recency .Hostile = 4/10) ∧
    (freq = 0 → predictReuseProb freq recency .Hostile = 1/10) ∧
    (freq = f2 → recency = r2 →
      predictReuseProb freq recency m = predictReuseProb f2 r2 m) := by
  refine ⟨?_, ?_, ?_, ?_, ?_⟩
  · simp only [predictReuseProb]
    congr 1
    ring
  · intro h
    simp only [predictReuseProb]
    rw [if_pos h]
  · intro h
    subst h
    norm_num [predictReuseProb]
  · intro h
    subst h
    norm_num [predictReuseProb]
  · intro h1 h2
    subst h1
    subst h2
    rfl

theorem predictReuseProb_spec_witness :
    predictReuseProb 2 5 .Hostile = 95/100 ∧
    predictReuseProb 1 7 .Hostile = 4/10 ∧
    predictReuseProb 0 9 .Hostile = 1/10 ∧
    predictReuseProb 3 4 .Hostile = predictReuseProb 3 4 .Hostile :=
  ⟨(predictReuseProb_spec 2 5 3 4 .Hostile).2.1 (by decide),
   (predictReuseProb_spec 1 7 3 4 .Hostile).2.2.1 rfl,
   (predictReuseProb_spec 0 9 3 4 .Hostile).2.2.2.1 rfl,
   (predictReuseProb_spec 3 4 3 4 .Hostile).2.2.2.2 rfl rfl⟩

/-- Claim C4: immediately after every access, every resident block's score
equals `predictReuseProb` of its current frequency, current recency and the
active mode; moreover the rescored list from which a capacity-miss decision
reads its scores (`bumpRescore`) is fresh in the same sense, so no eviction
decision uses a stale score. -/
theorem score_freshness_after_access (cap : Nat) (w : WorkloadType)
    (l : List CacheBlock) (blockId : String) (b : CacheBlock)
    (hb : b ∈ (access cap w l blockId).cache) :
    b.score = predictReuseProb b.frequency b.recency w ∧
    ∀ c ∈ bumpRescore w l, c.score = predictReuseProb c.frequency c.recency w :=
  ⟨access_score_fresh cap w l blockId b hb, bumpRescore_score_fresh w l⟩

theorem score_freshness_after_access_witness :
    (⟨"A", 0, 1, 2/5⟩ : CacheBlock) ∈ (access 4 .Hostile [] "A").cache ∧
    (⟨"A", 0, 1, 2/5⟩ : CacheBlock).score =
      predictReuseProb (⟨"A", 0, 1, 2/5⟩ : CacheBlock).frequency
        (⟨"A", 0, 1, 2/5⟩ : CacheBlock).recency .Hostile :=
  ⟨by decide,
   (score_freshness_after_access 4 .Hostile [] "A" ⟨"A", 0, 1, 2/5⟩ (by decide)).1⟩

/-- Claim C9: the Friendly-mode score equals `0.4 + 0.3/(recency+1)`, is
independent of frequency, strictly decreases as recency increases, lies in
`(0.4, 0.7]`, and the `min(0.85, ·)` cap never changes the value — the
effective structural maximum of Friendly scores is `0.7`, attained at
recency 0. -/
theorem friendly_score_shape (f f2 r r2 : Nat) :
    predictReuseProb f r .Friendly = 4/10 + (3/10) / ((r : ℚ) + 1) ∧
    predictReuseProb f r .Friendly = predictReuseProb f2 r .Friendly ∧
    (r < r2 → predictReuseProb f r2 .Friendly < predictReuseProb f r .Friendly) ∧
    4/10 < predictReuseProb f r .Friendly ∧
    predictReuseProb f r .Friendly ≤ 7/10 ∧
    predictReuseProb f 0 .Friendly = 7/10 := by
  refine ⟨friendly_eval f r, ?_, ?_, ?_, ?_, ?_⟩
  · rw [friendly_eval f r, friendly_eval f2 r]
  · intro h
    rw [friendly_eval f r, friendly_eval f r2]
    have hcast : ((r : ℚ) + 1) < ((r2 : ℚ) + 1) := by
      have : (r : ℚ) < (r2 : ℚ) := by exact_mod_cast h
      linarith
    have hdiv : (3/10 : ℚ) / ((r2 : ℚ) + 1) < (3/10 : ℚ) / ((r : ℚ) + 1) :=
      div_lt_div_of_pos_left (by norm_num) (by positivity) hcast
    linarith
  · rw [friendly_eval f r]
    linarith [friendly_div_pos r]
  · rw [friendly_eval f r]
    linarith [friendly_div_le r]
  · rw [friendly_eval f 0]
    norm_num

theorem friendly_score_shape_witness :
    predictReuseProb 0 1 .Friendly < predictReuseProb 0 0 .Friendly :=
  (friendly_score_shape 0 1 0 1).2.2.1 (by decide)

/-- Claim C5: on a capacity miss made while the mode is Friendly, the reported
confidence is the maximum rescored score, which is structurally at most
`0.85` and hence never exceeds the threshold `0.88`; the eviction therefore
always uses the LRU fallback and never the ML-guided method. -/
theorem friendly_eviction_is_lru (cap : Nat) (l : List CacheBlock) (blockId : String)
    (habs : l.findIdx? (fun b => b.id == blockId) = none)
    (hfull : l.length = cap) :
    (access cap .Friendly l blockId).confidence =
      some (listMaxQ ((bumpRescore .Friendly l).map (fun b => b.score))) ∧
    listMaxQ ((bumpRescore .Friendly l).map (fun b => b.score)) ≤ 85/100 ∧
    ¬ CONFIDENCE_THRESHOLD < listMaxQ ((bumpRescore .Friendly l).map (fun b => b.score)) ∧
    (access cap .Friendly l blockId).decisionMode = DecisionMode.LRU_FALLBACK ∧
    (access cap .Friendly l blockId).decisionMode ≠ DecisionMode.ML := by
  have hlen : ¬ l.length < cap := by omega
  have hmax_le : listMaxQ ((bumpRescore .Friendly l).map (fun b => b.score)) ≤ 85/100 := by
    apply listMaxQ_le _ _ (by norm_num)
    intro a ha
    obtain ⟨b, hb, rfl⟩ := List.mem_map.mp ha
    rw [bumpRescore_score_fresh .Friendly l b hb]
    exact friendly_le b.frequency b.recency
  have hml : ¬ CONFIDENCE_THRESHOLD <
      listMaxQ ((bumpRescore .Friendly l).map (fun b => b.score)) := by
    apply not_lt.mpr
    apply le_trans hmax_le
    norm_num [CONFIDENCE_THRESHOLD]
  rw [access_missEvict_lru_eq cap .Friendly l blockId habs hlen hml]
  exact ⟨rfl, hmax_le, hml, rfl, fun hcon => nomatch hcon⟩

theorem friendly_eviction_is_lru_witness :
    (access 1 .Friendly [⟨"A", 0, 1, 7/10⟩] "B").decisionMode =
      DecisionMode.LRU_FALLBACK ∧
    listMaxQ ((bumpRescore .Friendly [⟨"A", 0, 1, 7/10⟩]).map (fun b => b.score)) ≤ 85/100 :=
  ⟨(friendly_eviction_is_lru 1 [⟨"A", 0, 1, 7/10⟩] "B" (by decide) (by decide)).2.2.2.1,
   (friendly_eviction_is_lru 1 [⟨"A", 0, 1, 7/10⟩] "B" (by decide) (by decide)).2.1⟩

/-- Claim C2: starting from the empty cache, after any access sequence the
resident count is at most the capacity; and whenever the count has reached
the capacity, any further access leaves it exactly at the capacity (it never
decreases). -/
theorem capacity_invariant (cap : Nat) (w : WorkloadType) (ids : List String) :
    (runAccesses cap w ids).length ≤ cap ∧
    ∀ blockId : String, (runAccesses cap w ids).length = cap →
      (access cap w (runAccesses cap w ids) blockId).cache.length = cap := by
  constructor
  · exact foldl_access_length_le cap w ids [] (Nat.zero_le cap)
  · intro blockId h
    exact length_access_full cap w (runAccesses cap w ids) blockId h

theorem capacity_invariant_witness :
    (runAccesses 4 .Hostile ["A", "B", "C", "D", "E", "A"]).length ≤ 4 ∧
    (access 4 .Hostile (runAccesses 4 .Hostile ["A", "B", "C", "D", "E", "A"]) "F").cache.length = 4 :=
  ⟨(capacity_invariant 4 .Hostile ["A", "B", "C", "D", "E", "A"]).1,
   (capacity_invariant 4 .Hostile ["A", "B", "C", "D", "E", "A"]).2 "F" (by decide)⟩

/-- Elements of `bumpRescore` are exactly the source blocks with recency
bumped and score recomputed; id and frequency are untouched. -/
theorem mem_bumpRescore_iff (w : WorkloadType) (l : List CacheBlock) (b : CacheBlock) :
    b ∈ bumpRescore w l ↔ ∃ b0 ∈ l, b =
      { id := b0.id, recency := b0.recency + 1, frequency := b0.frequency,
        score := predictReuseProb b0.frequency (b0.recency + 1) w } := by
  simp only [bumpRescore, List.mem_map]
  constructor
  · rintro ⟨b0, hb0, rfl⟩
    exact ⟨b0, hb0, rfl⟩
  · rintro ⟨b0, hb0, rfl⟩
    exact ⟨b0, hb0, rfl⟩

/-- Claim C7: accessing the same resident block id twice in a row leaves the
resident count unchanged, increases that block's frequency by exactly 2
relative to its value before the two accesses, and leaves its recency at 0
after the second access (and the block keeps its id at the same index). -/
theorem double_hit (cap : Nat) (w : WorkloadType) (l : List CacheBlock)
    (blockId : String) (i : Nat)
    (h : l.findIdx? (fun b => b.id == blockId) = some i) :
    ((access cap w l blockId).cache).length = l.length ∧
    ((access cap w (access cap w l blockId).cache blockId).cache).length = l.length ∧
    (((access cap w (access cap w l blockId).cache blockId).cache).getD i default).id =
      (l.getD i default).id ∧
    (((access cap w (access cap w l blockId).cache blockId).cache).getD i default).frequency =
      (l.getD i default).frequency + 2 ∧
    (((access cap w (access cap w l blockId).cache blockId).cache).getD i default).recency
      = 0 := by
  have hi : i < l.length := findIdx?_some_lt l _ i h
  have he1 : (access cap w l blockId).cache = hitUpdate w l i := by
    rw [access_hit_eq cap w l blockId i h]
  have h2 : (hitUpdate w l i).findIdx? (fun b => b.id == blockId) = some i := by
    rw [findIdx?_id_congr blockId (hitUpdate w l i) l 0 (hitUpdate_map_id w l i)]
    exact h
  have he2 : (access cap w (hitUpdate w l i) blockId).cache =
      hitUpdate w (hitUpdate w l i) i := by
    rw [access_hit_eq cap w (hitUpdate w l i) blockId i h2]
  have hi1 : i < (hitUpdate w l i).length := by
    rw [length_hitUpdate]
    exact hi
  have hv1 := hitUpdate_getD_hit w l i hi
  have hv2 := hitUpdate_getD_hit w (hitUpdate w l i) i hi1
  rw [he1, he2]
  refine ⟨length_hitUpdate w l i, ?_, ?_, ?_, ?_⟩
  · rw [length_hitUpdate, length_hitUpdate]
  · rw [hv2, hv1]
  · rw [hv2, hv1]
  · rw [hv2]

theorem double_hit_witness :
    ((access 4 .Hostile [⟨"A", 0, 1, 2/5⟩, ⟨"B", 1, 1, 2/5⟩] "B").cache).length = 2 ∧
    (((access 4 .Hostile
        (access 4 .Hostile [⟨"A", 0, 1, 2/5⟩, ⟨"B", 1, 1, 2/5⟩] "B").cache
        "B").cache).getD 1 default).frequency = 3 ∧
    (((access 4 .Hostile
        (access 4 .Hostile [⟨"A", 0, 1, 2/5⟩, ⟨"B", 1, 1, 2/5⟩] "B").cache
        "B").cache).getD 1 default).recency = 0 :=
  ⟨(double_hit 4 .Hostile [⟨"A", 0, 1, 2/5⟩, ⟨"B", 1, 1, 2/5⟩] "B" 1 (by decide)).1,
   (double_hit 4 .Hostile [⟨"A", 0, 1, 2/5⟩, ⟨"B", 1, 1, 2/5⟩] "B" 1 (by decide)).2.2.2.1,
   (double_hit 4 .Hostile [⟨"A", 0, 1, 2/5⟩, ⟨"B", 1, 1, 2/5⟩] "B" 1 (by decide)).2.2.2.2⟩

/-- Claim C8: switching the workload mode between accesses changes no resident
block at the moment of the switch (no retroactive rescore); the rescoring
against the new mode happens during the next access — every block in that
access's result is scored under the new mode, and on a capacity miss the
decision's reported confidence is the maximum of the freshly rescored
(new-mode) scores. -/
theorem setWorkloadMode_spec (cap : Nat) (s : SimState) (m : WorkloadType) :
    (setWorkloadMode s m).cache = s.cache ∧
    (setWorkloadMode s m).workload = m ∧
    (∀ blockId : String, ∀ b ∈
        (access cap (setWorkloadMode s m).workload (setWorkloadMode s m).cache
          blockId).cache,
      b.score = predictReuseProb b.frequency b.recency m) ∧
    (∀ blockId : String,
      (setWorkloadMode s m).cache.findIdx? (fun b => b.id == blockId) = none →
      ¬ (setWorkloadMode s m).cache.length < cap →
      (access cap (setWorkloadMode s m).workload (setWorkloadMode s m).cache
          blockId).confidence =
        some (listMaxQ ((bumpRescore m s.cache).map (fun b => b.score))) ∧
      ∀ b ∈ bumpRescore m s.cache,
        b.score = predictReuseProb b.frequency b.recency m) := by
  refine ⟨rfl, rfl, ?_, ?_⟩
  · intro blockId b hb
    exact access_score_fresh cap m s.cache blockId b hb
  · intro blockId habs hlen
    refine ⟨?_, bumpRescore_score_fresh m s.cache⟩
    show (access cap m s.cache blockId).confidence =
      some (listMaxQ ((bumpRescore m s.cache).map (fun b => b.score)))
    by_cases hml : CONFIDENCE_THRESHOLD <
        listMaxQ ((bumpRescore m s.cache).map (fun b => b.score))
    · rw [access_missEvict_ml_eq cap m s.cache blockId habs hlen hml]
    · rw [access_missEvict_lru_eq cap m s.cache blockId habs hlen hml]

theorem setWorkloadMode_spec_witness :
    (setWorkloadMode ⟨[⟨"A", 0, 1, 7/10⟩], .Friendly⟩ .Hostile).cache =
      [⟨"A", 0, 1, 7/10⟩] ∧
    (setWorkloadMode ⟨[⟨"A", 0, 1, 7/10⟩], .Friendly⟩ .Hostile).workload = .Hostile ∧
    (access 1 .Hostile [⟨"A", 0, 1, 7/10⟩] "B").confidence =
      some (listMaxQ ((bumpRescore .Hostile [⟨"A", 0, 1, 7/10⟩]).map (fun b => b.score))) :=
  ⟨(setWorkloadMode_spec 1 ⟨[⟨"A", 0, 1, 7/10⟩], .Friendly⟩ .Hostile).1,
   (setWorkloadMode_spec 1 ⟨[⟨"A", 0, 1, 7/10⟩], .Friendly⟩ .Hostile).2.1,
   ((setWorkloadMode_spec 1 ⟨[⟨"A", 0, 1, 7/10⟩], .Friendly⟩ .Hostile).2.2.2 "B"
      (by decide) (by decide)).1⟩

/-- Claim C10: under Hostile mode, a capacity-miss eviction takes the
ML-guided branch iff some resident block — equivalently after the
pre-decision bump and rescore, which preserve frequencies — has frequency
≥ 2; the LRU fallback is taken exactly when every resident block has
frequency ≤ 1. -/
theorem hostile_ml_iff_high_freq (cap : Nat) (l : List CacheBlock) (blockId : String)
    (habs : l.findIdx? (fun b => b.id == blockId) = none)
    (hfull : l.length = cap) :
    ((access cap .Hostile l blockId).decisionMode = DecisionMode.ML ↔
      ∃ b ∈ bumpRescore .Hostile l, 2 ≤ b.frequency) ∧
    ((access cap .Hostile l blockId).decisionMode = DecisionMode.ML ↔
      ∃ b ∈ l, 2 ≤ b.frequency) ∧
    ((access cap .Hostile l blockId).decisionMode = DecisionMode.LRU_FALLBACK ↔
      ∀ b ∈ l, b.frequency ≤ 1) := by
  have hlen : ¬ l.length < cap := by omega
  have hbump_iff : (∃ b ∈ bumpRescore .Hostile l, 2 ≤ b.frequency) ↔
      ∃ b ∈ l, 2 ≤ b.frequency := by
    constructor
    · rintro ⟨b, hb, h2⟩
      obtain ⟨b0, hb0, rfl⟩ := (mem_bumpRescore_iff .Hostile l b).mp hb
      exact ⟨b0, hb0, h2⟩
    · rintro ⟨b0, hb0, h2⟩
      exact ⟨_, (mem_bumpRescore_iff .Hostile l _).mpr ⟨b0, hb0, rfl⟩, h2⟩
  have hkey : CONFIDENCE_THRESHOLD <
      listMaxQ ((bumpRescore .Hostile l).map (fun b => b.score)) ↔
      ∃ b ∈ l, 2 ≤ b.frequency := by
    rw [lt_listMaxQ_iff _ _ (by norm_num [CONFIDENCE_THRESHOLD])]
    constructor
    · rintro ⟨a, ha, hgt⟩
      obtain ⟨b, hb, rfl⟩ := List.mem_map.mp ha
      obtain ⟨b0, hb0, rfl⟩ := (mem_bumpRescore_iff .Hostile l b).mp hb
      exact ⟨b0, hb0, (hostile_gt_iff b0.frequency (b0.recency + 1)).mp hgt⟩
    · rintro ⟨b0, hb0, h2⟩
      refine ⟨predictReuseProb b0.frequency (b0.recency + 1) .Hostile, ?_, ?_⟩
      · exact List.mem_map.mpr
          ⟨_, (mem_bumpRescore_iff .Hostile l _).mpr ⟨b0, hb0, rfl⟩, rfl⟩
      · exact (hostile_gt_iff b0.frequency (b0.recency + 1)).mpr h2
  have hMLiff : (access cap .Hostile l blockId).decisionMode = DecisionMode.ML ↔
      CONFIDENCE_THRESHOLD <
        listMaxQ ((bumpRescore .Hostile l).map (fun b => b.score)) := by
    by_cases hml : CONFIDENCE_THRESHOLD <
        listMaxQ ((bumpRescore .Hostile l).map (fun b => b.score))
    · rw [access_missEvict_ml_eq cap .Hostile l blockId habs hlen hml]
      exact iff_of_true rfl hml
    · rw [access_missEvict_lru_eq cap .Hostile l blockId habs hlen hml]
      exact iff_of_false (fun hcon => nomatch hcon) hml
  have hLRUiff : (access cap .Hostile l blockId).decisionMode =
      DecisionMode.LRU_FALLBACK ↔
      ¬ CONFIDENCE_THRESHOLD <
        listMaxQ ((bumpRescore .Hostile l).map (fun b => b.score)) := by
    by_cases hml : CONFIDENCE_THRESHOLD <
        listMaxQ ((bumpRescore .Hostile l).map (fun b => b.score))
    · rw [access_missEvict_ml_eq cap .Hostile l blockId habs hlen hml]
      exact iff_of_false (fun hcon => nomatch hcon) (not_not_intro hml)
    · rw [access_missEvict_lru_eq cap .Hostile l blockId habs hlen hml]
      exact iff_of_true rfl hml
  have hnot : (¬ ∃ b ∈ l, 2 ≤ b.frequency) ↔ ∀ b ∈ l, b.frequency ≤ 1 := by
    push_neg
    constructor
    · intro hba b hb
      have := hba b hb
      omega
    · intro hba b hb
      have := hba b hb
      omega
  exact ⟨hMLiff.trans (hkey.trans hbump_iff.symm), hMLiff.trans hkey,
    hLRUiff.trans ((not_congr hkey).trans hnot)⟩

theorem hostile_ml_iff_high_freq_witness :
    (access 1 .Hostile [⟨"A", 0, 2, 19/20⟩] "B").decisionMode = DecisionMode.ML :=
  ((hostile_ml_iff_high_freq 1 [⟨"A", 0, 2, 19/20⟩] "B" (by decide) (by decide)).2.1).mpr
    ⟨⟨"A", 0, 2, 19/20⟩, by decide, by decide⟩

/-- The ML-guided victim choice: an in-range index whose block attains the
minimum score over the rescored residents, first occurrence in iteration
order (every strictly earlier index holds a strictly larger score); the new
block replaces it in place and it is reported as the victim. -/
def FirstMinScoreVictim (bumped : List CacheBlock) (nb : CacheBlock)
    (r : AccessResult) : Prop :=
  ∃ i, i < bumped.length ∧ r.cache = bumped.set i nb ∧
    r.victim = some (bumped.getD i default) ∧
    (∀ j, j < bumped.length →
      (bumped.getD i default).score ≤ (bumped.getD j default).score) ∧
    (∀ j, j < i → (bumped.getD i default).score < (bumped.getD j default).score)

/-- The LRU-fallback victim choice: an in-range index whose block attains
the maximum recency, first occurrence in iteration order; the new block
replaces it in place and it is reported as the victim. -/
def FirstMaxRecencyVictim (bumped : List CacheBlock) (nb : CacheBlock)
    (r : AccessResult) : Prop :=
  ∃ i, i < bumped.length ∧ r.cache = bumped.set i nb ∧
    r.victim = some (bumped.getD i default) ∧
    (∀ j, j < bumped.length →
      (bumped.getD j default).recency ≤ (bumped.getD i default).recency) ∧
    (∀ j, j < i → (bumped.getD j default).recency < (bumped.getD i default).recency)

/-- Claim C1: on an access of an absent id with the cache at capacity, after
the recency bump and rescore of all residents the reported confidence is the
maximum rescored score; if it strictly exceeds the threshold 0.88 the victim
is the first minimum-score resident and the method is ML-guided, otherwise
the victim is the first maximum-recency resident and the method is the LRU
fallback; a maximum score exactly equal to 0.88 takes the LRU branch. -/
theorem evict_decision_characterization (cap : Nat) (w : WorkloadType)
    (l : List CacheBlock) (blockId : String)
    (habs : l.findIdx? (fun b => b.id == blockId) = none)
    (hfull : l.length = cap) (hpos : 0 < cap) :
    (access cap w l blockId).confidence =
      some (listMaxQ ((bumpRescore w l).map (fun b => b.score))) ∧
    (∀ b ∈ bumpRescore w l,
      b.score ≤ listMaxQ ((bumpRescore w l).map (fun b => b.score))) ∧
    listMaxQ ((bumpRescore w l).map (fun b => b.score)) ∈
      (bumpRescore w l).map (fun b => b.score) ∧
    (CONFIDENCE_THRESHOLD < listMaxQ ((bumpRescore w l).map (fun b => b.score)) →
      (access cap w l blockId).decisionMode = DecisionMode.ML ∧
      FirstMinScoreVictim (bumpRescore w l) (newBlockFor w blockId)
        (access cap w l blockId)) ∧
    (¬ CONFIDENCE_THRESHOLD < listMaxQ ((bumpRescore w l).map (fun b => b.score)) →
      (access cap w l blockId).decisionMode = DecisionMode.LRU_FALLBACK ∧
      FirstMaxRecencyVictim (bumpRescore w l) (newBlockFor w blockId)
        (access cap w l blockId)) ∧
    (listMaxQ ((bumpRescore w l).map (fun b => b.score)) = CONFIDENCE_THRESHOLD →
      (access cap w l blockId).decisionMode = DecisionMode.LRU_FALLBACK) := by
  have hlen : ¬ l.length < cap := by omega
  have hbne : bumpRescore w l ≠ [] := by
    intro hcon
    have hl := length_bumpRescore w l
    rw [hcon] at hl
    simp at hl
    omega
  refine ⟨?_, ?_, ?_, ?_, ?_, ?_⟩
  · by_cases hml : CONFIDENCE_THRESHOLD <
        listMaxQ ((bumpRescore w l).map (fun b => b.score))
    · rw [access_missEvict_ml_eq cap w l blockId habs hlen hml]
    · rw [access_missEvict_lru_eq cap w l blockId habs hlen hml]
  · intro b hb
    exact le_listMaxQ _ _ (List.mem_map.mpr ⟨b, hb, rfl⟩)
  · apply listMaxQ_mem
    simpa using hbne
  · intro hml
    rw [access_missEvict_ml_eq cap w l blockId habs hlen hml]
    obtain ⟨h1, h2, h3⟩ := argminScore_spec (bumpRescore w l) hbne
    exact ⟨rfl, argminScore (bumpRescore w l), h1, rfl, rfl, h2, h3⟩
  · intro hml
    rw [access_missEvict_lru_eq cap w l blockId habs hlen hml]
    obtain ⟨h1, h2, h3⟩ := argmaxRecency_spec (bumpRescore w l) hbne
    exact ⟨rfl, argmaxRecency (bumpRescore w l), h1, rfl, rfl, h2, h3⟩
  · intro heq
    have hml : ¬ CONFIDENCE_THRESHOLD <
        listMaxQ ((bumpRescore w l).map (fun b => b.score)) :=
      not_lt.mpr (le_of_eq heq)
    rw [access_missEvict_lru_eq cap w l blockId habs hlen hml]

theorem evict_decision_characterization_witness :
    (access 2 .Hostile [⟨"A", 3, 1, 2/5⟩, ⟨"B", 1, 2, 19/20⟩] "C").decisionMode =
      DecisionMode.ML ∧
    (access 2 .Hostile [⟨"A", 3, 1, 2/5⟩, ⟨"B", 1, 2, 19/20⟩] "C").confidence =
      some (listMaxQ ((bumpRescore .Hostile [⟨"A", 3, 1, 2/5⟩, ⟨"B", 1, 2, 19/20⟩]).map
        (fun b => b.score))) :=
  ⟨((evict_decision_characterization 2 .Hostile [⟨"A", 3, 1, 2/5⟩, ⟨"B", 1, 2, 19/20⟩]
      "C" (by decide) (by decide) (by decide)).2.2.2.1 (by decide)).1,
   (evict_decision_characterization 2 .Hostile [⟨"A", 3, 1, 2/5⟩, ⟨"B", 1, 2, 19/20⟩]
      "C" (by decide) (by decide) (by decide)).1⟩

/-- Claim C6 counterexample: in the Hostile end-to-end scenario `A,B,C,D,A,A,E`
with `CAPACITY = 4`, after the full 7-access sequence block `A` (still at
index 0) has recency 1, not 0 — the claimed post-sequence `A.recency = 0`
fails on the code (it holds only immediately before the 7th access). -/
theorem hostile_scenario_recency_counterexample :
    (runAccesses CAPACITY .Hostile ["A", "B", "C", "D", "A", "A", "E"]).findIdx?
      (fun b => b.id == "A") = some 0 ∧
    ¬ ((runAccesses CAPACITY .Hostile ["A", "B", "C", "D", "A", "A", "E"]).getD 0
      default).recency = 0 := by
  decide

/-- Claim C6 as amended: in the Hostile scenario `A,B,C,D,A,A,E` with
`CAPACITY = 4`: immediately before the 7th access, `A` has frequency 3,
recency 0 and score 0.95; the 7th access (`E`, a miss on a full cache)
reports method ML with confidence 0.95 (> 0.88) and evicts `B`, the first
minimum-score resident (`A` being protected by its 0.95 score); after the
full sequence `A` has frequency 3, recency 1 (bumped by the 7th access) and
score 0.95, and the cache holds `A,E,C,D` in order. -/
theorem hostile_scenario_end_to_end :
    ((runAccesses CAPACITY .Hostile ["A", "B", "C", "D", "A", "A"]).getD 0
      default).id = "A" ∧
    ((runAccesses CAPACITY .Hostile ["A", "B", "C", "D", "A", "A"]).getD 0
      default).frequency = 3 ∧
    ((runAccesses CAPACITY .Hostile ["A", "B", "C", "D", "A", "A"]).getD 0
      default).recency = 0 ∧
    ((runAccesses CAPACITY .Hostile ["A", "B", "C", "D", "A", "A"]).getD 0
      default).score = 95/100 ∧
    (access CAPACITY .Hostile
      (runAccesses CAPACITY .Hostile ["A", "B", "C", "D", "A", "A"]) "E").decisionMode =
      DecisionMode.ML ∧
    (access CAPACITY .Hostile
      (runAccesses CAPACITY .Hostile ["A", "B", "C", "D", "A", "A"]) "E").confidence =
      some (95/100) ∧
    (access CAPACITY .Hostile
      (runAccesses CAPACITY .Hostile ["A", "B", "C", "D", "A", "A"]) "E").victim =
      some ⟨"B", 5, 1, 2/5⟩ ∧
    (runAccesses CAPACITY .Hostile ["A", "B", "C", "D", "A", "A", "E"]).map
      (fun b => b.id) = ["A", "E", "C", "D"] ∧
    ((runAccesses CAPACITY .Hostile ["A", "B", "C", "D", "A", "A", "E"]).getD 0
      default).frequency = 3 ∧
    ((runAccesses CAPACITY .Hostile ["A", "B", "C", "D", "A", "A", "E"]).getD 0
      default).recency = 1 ∧
    ((runAccesses CAPACITY .Hostile ["A", "B", "C", "D", "A", "A", "E"]).getD 0
      default).score = 95/100 := by
  decide
